import Mathlib

/-!
# SessionIDManager (src/StratumServer.h)

A shallow embedding of the session id allocator of the stratum server:
a `std::bitset` of `MAX_SESSION_INDEX_SERVER + 1` bits, a rotating cursor
`allocIdx_` and the 8-bit server id that is put in the top byte of every
session id.

* `uint8_t` / `uint32_t` values are natural numbers; arithmetic that can wrap
  is written with an explicit `% 2 ^ 32`.
* `std::bitset<N>` is a function `Fin N → Bool`; `test` and `set` check their
  position and throw `std::out_of_range` outside `[0, N)`, as the C++ standard
  library does.
* The `while` loop of `allocSessionId` is a recursion on a fuel argument, one
  unit of fuel per bit tested. `none` means that the fuel ran out while the
  loop was still running.
* The mutex (`ScopeLock`) is not modelled: every operation is one atomic step.
-/

set_option autoImplicit false

namespace StratumServer

/-- Session index bound of the source: `#define MAX_SESSION_INDEX_SERVER 0x00FFFFFFu`. -/
abbrev MAX_SESSION_INDEX_SERVER : Nat := 0x00FFFFFF

/-- The one C++ exception the bitset operations can raise. -/
inductive Exception where
  | out_of_range
  deriving DecidableEq, Repr

/-- Contents of a `std::bitset<n>`: one boolean per position. -/
abbrev bitset (n : Nat) : Type := Fin n → Bool

/-- Default constructor `std::bitset()`: all bits are zero. -/
def bitset.init {n : Nat} : bitset n :=
  fun _ => false

/-- Member `std::bitset::reset()`: every bit cleared. -/
def bitset.reset {n : Nat} (_b : bitset n) : bitset n :=
  fun _ => false

/-- Member `std::bitset::test(pos)`: the bit at `pos`, or `out_of_range`. -/
def bitset.test {n : Nat} (b : bitset n) (pos : Nat) : Except Exception Bool :=
  if h : pos < n then .ok (b ⟨pos, h⟩) else .error .out_of_range

/-- Member `std::bitset::set(pos, val)`: bit `pos` becomes `val`, or `out_of_range`. -/
def bitset.set {n : Nat} (b : bitset n) (pos : Nat) (val : Bool) :
    Except Exception (bitset n) :=
  if pos < n then .ok (fun j => if j.val = pos then val else b j)
  else .error .out_of_range

/-- Fields of `class SessionIDManager` (the mutex apart). -/
structure SessionIDManager where
  /-- Field `uint8_t serverId_`. -/
  serverId_ : Nat
  /-- Field `std::bitset<MAX_SESSION_INDEX_SERVER + 1> sessionIds_`. -/
  sessionIds_ : bitset (MAX_SESSION_INDEX_SERVER + 1)
  /-- Field `uint32_t allocIdx_`. -/
  allocIdx_ : Nat

/-- Constructor `SessionIDManager(const uint8_t serverId)`: stores the server id
(an 8-bit value), sets the cursor to 0 and resets the bitset. It has no other
statement: no value of `serverId` is examined. -/
def SessionIDManager.ctor (serverId : Nat) : SessionIDManager :=
  { serverId_ := serverId % 2 ^ 8
    sessionIds_ := bitset.reset bitset.init
    allocIdx_ := 0 }

/-- Body of the scan loop of `allocSessionId`:
`allocIdx_++; if (allocIdx_ > MAX_SESSION_INDEX_SERVER) allocIdx_ = 0;`. -/
def advanceIdx (allocIdx : Nat) : Nat :=
  let next := (allocIdx + 1) % 2 ^ 32
  if next > MAX_SESSION_INDEX_SERVER then 0 else next

/-- Loop `while (sessionIds_.test(allocIdx_) == true) { ... }` of
`allocSessionId`, started with cursor `allocIdx`. Every unit of `fuel` pays for
one `test`. The result is the cursor at which the loop exits, the exception
thrown by `test`, or `none` when the loop is still running after `fuel` tests. -/
def allocLoop {n : Nat} (b : bitset n) : Nat → Nat → Option (Except Exception Nat)
  | 0, _ => none
  | fuel + 1, allocIdx =>
    match b.test allocIdx with
    | .error e => some (.error e)
    | .ok true => allocLoop b fuel (advanceIdx allocIdx)
    | .ok false => some (.ok allocIdx)

/-- Method `uint32_t allocSessionId()`: scan for an empty bit from the cursor,
set it, return `((uint32_t)serverId_ << 24) | allocIdx_`. The cursor is left on
the index that was found. -/
def allocSessionId (fuel : Nat) (s : SessionIDManager) :
    Option (Except Exception (Nat × SessionIDManager)) :=
  match allocLoop s.sessionIds_ fuel s.allocIdx_ with
  | none => none
  | some (.error e) => some (.error e)
  | some (.ok idx) =>
    match s.sessionIds_.set idx true with
    | .error e => some (.error e)
    | .ok bits =>
      some (.ok (((s.serverId_ <<< 24) % 2 ^ 32) ||| idx,
        { s with sessionIds_ := bits, allocIdx_ := idx }))

/-- Method `void freeSessionId(uint32_t sessionId)`:
`idx = sessionId & 0x00FFFFFFu; sessionIds_.set(idx, false);`. -/
def freeSessionId (s : SessionIDManager) (sessionId : Nat) :
    Except Exception SessionIDManager :=
  let idx := sessionId &&& 0x00FFFFFF
  match s.sessionIds_.set idx false with
  | .error e => .error e
  | .ok bits => .ok { s with sessionIds_ := bits }

/-- The session id of a result of `allocSessionId`, when it returned one. -/
def returnedId : Option (Except Exception (Nat × SessionIDManager)) → Option Nat
  | some (.ok (id, _)) => some id
  | _ => none

/-- A manager in mid-life, for concrete evaluation: server id 1, indices 0, 1, 2
in use, cursor on index 1. -/
def busyManager : SessionIDManager :=
  { serverId_ := 1
    sessionIds_ := fun j => decide (j.val < 3)
    allocIdx_ := 1 }

/-- The exhausted manager: every bit set, the cursor on the last index. -/
def fullManager : SessionIDManager :=
  { serverId_ := 1
    sessionIds_ := fun _ => true
    allocIdx_ := MAX_SESSION_INDEX_SERVER }

/-- `allocSessionId` called `n` times in a row, each call with `fuel`; `none`
when one of the calls does not return a session id. -/
def allocRepeat (fuel : Nat) : Nat → SessionIDManager → Option SessionIDManager
  | 0, s => some s
  | n + 1, s =>
    match allocSessionId fuel s with
    | some (.ok (_, s')) => allocRepeat fuel n s'
    | _ => none

/-- A call made on the manager: the accept path allocates, the teardown of a
connection frees. -/
inductive Call where
  | allocSessionId
  | freeSessionId (sessionId : Nat)

/-- A manager with the list of its live session ids: those `allocSessionId`
returned and `freeSessionId` has not been called on since. -/
structure Tracked where
  mgr : SessionIDManager
  live : List Nat

/-- One call on a tracked manager. `none` when `allocSessionId` returns no id
(with `fuel`), or when `freeSessionId` is called on an id that is not live. -/
def Tracked.call (fuel : Nat) (t : Tracked) : Call → Option Tracked
  | .allocSessionId =>
    match allocSessionId fuel t.mgr with
    | some (.ok (id, m)) => some { mgr := m, live := id :: t.live }
    | _ => none
  | .freeSessionId sessionId =>
    if sessionId ∈ t.live then
      match freeSessionId t.mgr sessionId with
      | .ok m => some { mgr := m, live := t.live.erase sessionId }
      | .error _ => none
    else none

/-- A sequence of calls on a manager freshly constructed with `serverId`. -/
def runCalls (fuel serverId : Nat) (calls : List Call) : Option Tracked :=
  calls.foldlM (Tracked.call fuel) { mgr := SessionIDManager.ctor serverId, live := [] }

/-- Invariant of a tracked manager: the cursor is in range, the bit of every
live id is set, no two live ids share an index, and every set bit is the index
of a live id. -/
def Tracked.Inv (t : Tracked) : Prop :=
  t.mgr.allocIdx_ ≤ MAX_SESSION_INDEX_SERVER ∧
  (∀ id ∈ t.live, t.mgr.sessionIds_.test (id &&& 0x00FFFFFF) = .ok true) ∧
  (t.live.map (fun id => id &&& 0x00FFFFFF)).Nodup ∧
  ∀ p : Fin (MAX_SESSION_INDEX_SERVER + 1), t.mgr.sessionIds_ p = true →
    ∃ id ∈ t.live, id &&& 0x00FFFFFF = p.val

/-! ## Bitset lemmas -/

theorem bitset.test_of_lt {n : Nat} (b : bitset n) (pos : Nat) (h : pos < n) :
    b.test pos = .ok (b ⟨pos, h⟩) := by
  simp [bitset.test, h]

theorem bitset.test_eq_ok {n : Nat} (b : bitset n) (pos : Nat) (v : Bool)
    (h : b.test pos = .ok v) : ∃ hp : pos < n, b ⟨pos, hp⟩ = v := by
  unfold bitset.test at h
  split at h
  · rename_i hp
    exact ⟨hp, by simpa using h⟩
  · simp at h

theorem bitset.set_of_lt {n : Nat} (b : bitset n) (pos : Nat) (val : Bool) (h : pos < n) :
    b.set pos val = .ok (fun j => if j.val = pos then val else b j) := by
  simp [bitset.set, h]

/-- Reading a bitset after one position was written. -/
theorem bitset.test_write {n : Nat} (b : bitset n) (pos p : Nat) (val : Bool) :
    bitset.test (fun j : Fin n => if j.val = pos then val else b j) p
      = if p < n ∧ p = pos then .ok val else b.test p := by
  unfold bitset.test
  by_cases hp : p < n
  · by_cases hpos : p = pos
    · subst hpos
      simp [hp]
    · simp [hp, hpos]
  · simp [hp]

/-! ## The scan loop -/

theorem advanceIdx_of_le (c : Nat) (h : c ≤ MAX_SESSION_INDEX_SERVER) :
    advanceIdx c = (c + 1) % (MAX_SESSION_INDEX_SERVER + 1) := by
  unfold advanceIdx
  simp only [MAX_SESSION_INDEX_SERVER] at *
  split <;> omega

theorem advanceIdx_le (c : Nat) : advanceIdx c ≤ MAX_SESSION_INDEX_SERVER := by
  unfold advanceIdx
  simp only [MAX_SESSION_INDEX_SERVER] at *
  split <;> omega

/-- The loop started in range with the first `k` positions of the cyclic scan
set and the next one clear exits on that one, after `k + 1` tests. -/
theorem allocLoop_found (b : bitset (MAX_SESSION_INDEX_SERVER + 1)) :
    ∀ (k c extra : Nat), c ≤ MAX_SESSION_INDEX_SERVER →
      (∀ j, j < k → b.test ((c + j) % (MAX_SESSION_INDEX_SERVER + 1)) = .ok true) →
      b.test ((c + k) % (MAX_SESSION_INDEX_SERVER + 1)) = .ok false →
      allocLoop b (k + 1 + extra) c
        = some (.ok ((c + k) % (MAX_SESSION_INDEX_SERVER + 1))) := by
  intro k
  induction k with
  | zero =>
    intro c extra hc _ hk
    have hmod : (c + 0) % (MAX_SESSION_INDEX_SERVER + 1) = c := by
      simp only [MAX_SESSION_INDEX_SERVER] at *; omega
    rw [hmod] at hk ⊢
    have : 0 + 1 + extra = extra + 1 := by omega
    rw [this]
    simp [allocLoop, hk]
  | succ k ih =>
    intro c extra hc hset hk
    have h0 : b.test c = .ok true := by
      have := hset 0 (by omega)
      have hmod : (c + 0) % (MAX_SESSION_INDEX_SERVER + 1) = c := by
        simp only [MAX_SESSION_INDEX_SERVER] at *; omega
      rwa [hmod] at this
    have hfuel : k + 1 + 1 + extra = (k + 1 + extra) + 1 := by omega
    rw [hfuel]
    simp only [allocLoop, h0]
    rw [advanceIdx_of_le c hc]
    have hshift : ∀ j, ((c + 1) % (MAX_SESSION_INDEX_SERVER + 1) + j)
        % (MAX_SESSION_INDEX_SERVER + 1) = (c + (j + 1)) % (MAX_SESSION_INDEX_SERVER + 1) := by
      intro j
      simp only [MAX_SESSION_INDEX_SERVER]; omega
    have hc1 : (c + 1) % (MAX_SESSION_INDEX_SERVER + 1) ≤ MAX_SESSION_INDEX_SERVER := by
      simp only [MAX_SESSION_INDEX_SERVER]; omega
    have := ih ((c + 1) % (MAX_SESSION_INDEX_SERVER + 1)) extra hc1
      (fun j hj => by rw [hshift]; exact hset (j + 1) (by omega))
      (by rw [hshift]; exact hk)
    rw [this, hshift]

/-- While the positions scanned are all set, the loop is still running when the
fuel is used up. -/
theorem allocLoop_running (b : bitset (MAX_SESSION_INDEX_SERVER + 1)) :
    ∀ (k c : Nat), c ≤ MAX_SESSION_INDEX_SERVER →
      (∀ j, j < k → b.test ((c + j) % (MAX_SESSION_INDEX_SERVER + 1)) = .ok true) →
      allocLoop b k c = none := by
  intro k
  induction k with
  | zero => intro c _ _; rfl
  | succ k ih =>
    intro c hc hset
    have h0 : b.test c = .ok true := by
      have := hset 0 (by omega)
      have hmod : (c + 0) % (MAX_SESSION_INDEX_SERVER + 1) = c := by
        simp only [MAX_SESSION_INDEX_SERVER] at *; omega
      rwa [hmod] at this
    simp only [allocLoop, h0]
    rw [advanceIdx_of_le c hc]
    have hshift : ∀ j, ((c + 1) % (MAX_SESSION_INDEX_SERVER + 1) + j)
        % (MAX_SESSION_INDEX_SERVER + 1) = (c + (j + 1)) % (MAX_SESSION_INDEX_SERVER + 1) := by
      intro j
      simp only [MAX_SESSION_INDEX_SERVER]; omega
    have hc1 : (c + 1) % (MAX_SESSION_INDEX_SERVER + 1) ≤ MAX_SESSION_INDEX_SERVER := by
      simp only [MAX_SESSION_INDEX_SERVER]; omega
    exact ih _ hc1 (fun j hj => by rw [hshift]; exact hset (j + 1) (by omega))

/-- Whatever the fuel, a cursor the loop exits on is a position whose bit is clear. -/
theorem allocLoop_exit_clear {n : Nat} (b : bitset n) :
    ∀ (fuel c i : Nat), allocLoop b fuel c = some (.ok i) → b.test i = .ok false := by
  intro fuel
  induction fuel with
  | zero => intro c i h; simp [allocLoop] at h
  | succ fuel ih =>
    intro c i h
    unfold allocLoop at h
    split at h
    · simp at h
    · exact ih _ _ h
    · rename_i hc
      simp only [Option.some.injEq, Except.ok.injEq] at h
      subst h
      exact hc

/-- A set of positions with a clear bit has a first clear position on the cyclic
scan from any cursor, at distance below the size of the bitset. -/
theorem exists_first_clear (b : bitset (MAX_SESSION_INDEX_SERVER + 1)) (c : Nat)
    (hclear : ∃ p : Fin (MAX_SESSION_INDEX_SERVER + 1), b p = false) :
    ∃ k, k ≤ MAX_SESSION_INDEX_SERVER ∧
      b.test ((c + k) % (MAX_SESSION_INDEX_SERVER + 1)) = .ok false ∧
      ∀ j, j < k → b.test ((c + j) % (MAX_SESSION_INDEX_SERVER + 1)) = .ok true := by
  classical
  obtain ⟨p, hp⟩ := hclear
  have hex : ∃ k, b.test ((c + k) % (MAX_SESSION_INDEX_SERVER + 1)) = .ok false := by
    refine ⟨(p.val + (MAX_SESSION_INDEX_SERVER + 1) - c % (MAX_SESSION_INDEX_SERVER + 1))
      % (MAX_SESSION_INDEX_SERVER + 1), ?_⟩
    have hpl := p.isLt
    have hmod : (c + (p.val + (MAX_SESSION_INDEX_SERVER + 1) - c % (MAX_SESSION_INDEX_SERVER + 1))
        % (MAX_SESSION_INDEX_SERVER + 1)) % (MAX_SESSION_INDEX_SERVER + 1) = p.val := by
      simp only [MAX_SESSION_INDEX_SERVER] at *; omega
    rw [hmod, bitset.test_of_lt b p.val hpl]
    simp [hp]
  refine ⟨Nat.find hex, ?_, Nat.find_spec hex, ?_⟩
  · by_contra hgt
    have hlt : Nat.find hex - (MAX_SESSION_INDEX_SERVER + 1) < Nat.find hex := by
      simp only [MAX_SESSION_INDEX_SERVER] at *; omega
    apply Nat.find_min hex hlt
    have hmod : (c + (Nat.find hex - (MAX_SESSION_INDEX_SERVER + 1))) % (MAX_SESSION_INDEX_SERVER + 1)
        = (c + Nat.find hex) % (MAX_SESSION_INDEX_SERVER + 1) := by
      simp only [MAX_SESSION_INDEX_SERVER] at *; omega
    rw [hmod]
    exact Nat.find_spec hex
  · intro j hj
    have hnot := Nat.find_min hex hj
    have hlt : (c + j) % (MAX_SESSION_INDEX_SERVER + 1) < MAX_SESSION_INDEX_SERVER + 1 :=
      Nat.mod_lt _ (by simp only [MAX_SESSION_INDEX_SERVER]; omega)
    rw [bitset.test_of_lt b _ hlt] at hnot ⊢
    cases hb : b ⟨(c + j) % (MAX_SESSION_INDEX_SERVER + 1), hlt⟩
    · rw [hb] at hnot; exact absurd rfl hnot
    · rfl

/-! ## Layout of a session id -/

/-- The value returned by `allocSessionId` is the sum of the two fields. -/
theorem sessionId_eq_add (sid i : Nat) (hi : i ≤ MAX_SESSION_INDEX_SERVER) :
    ((sid <<< 24) % 2 ^ 32) ||| i = 2 ^ 24 * (sid % 2 ^ 8) + i := by
  have h1 : (sid <<< 24) % 2 ^ 32 = 2 ^ 24 * (sid % 2 ^ 8) := by
    rw [Nat.shiftLeft_eq]
    norm_num
    omega
  have hi2 : i < 2 ^ 24 := by
    simp only [MAX_SESSION_INDEX_SERVER] at hi
    norm_num
    omega
  rw [h1, ← Nat.mul_add_lt_is_or hi2]

/-- The size of the bitset, `MAX_SESSION_INDEX_SERVER + 1`, is `2 ^ 24`. -/
theorem two_pow_24 : (2 : Nat) ^ 24 = MAX_SESSION_INDEX_SERVER + 1 := by
  norm_num [MAX_SESSION_INDEX_SERVER]

/-- Masking with `0x00FFFFFF` is the remainder modulo `2 ^ 24`. -/
theorem and_mask_eq_mod (x : Nat) : x &&& 0x00FFFFFF = x % 2 ^ 24 := by
  have h : (0x00FFFFFF : Nat) = 2 ^ 24 - 1 := by norm_num
  rw [h, Nat.and_pow_two_sub_one_eq_mod]

theorem and_mask_le (x : Nat) : x &&& 0x00FFFFFF ≤ MAX_SESSION_INDEX_SERVER := by
  rw [and_mask_eq_mod]
  simp only [MAX_SESSION_INDEX_SERVER]
  omega

/-- The low 24 bits of a session id are the index it was built from. -/
theorem sessionId_index (sid i : Nat) (hi : i ≤ MAX_SESSION_INDEX_SERVER) :
    (((sid <<< 24) % 2 ^ 32) ||| i) &&& 0x00FFFFFF = i := by
  rw [and_mask_eq_mod, sessionId_eq_add sid i hi]
  simp only [MAX_SESSION_INDEX_SERVER] at hi
  omega

/-- The top byte of a session id is the server id it was built from. -/
theorem sessionId_server (sid i : Nat) (hs : sid < 2 ^ 8) (hi : i ≤ MAX_SESSION_INDEX_SERVER) :
    (((sid <<< 24) % 2 ^ 32) ||| i) >>> 24 = sid := by
  rw [Nat.shiftRight_eq_div_pow, sessionId_eq_add sid i hi]
  simp only [MAX_SESSION_INDEX_SERVER] at hi
  omega

/-- For an 8-bit server id the shift does not overflow 32 bits. -/
theorem shiftLeft_serverId (sid : Nat) (hs : sid < 2 ^ 8) :
    (sid <<< 24) % 2 ^ 32 = sid <<< 24 := by
  rw [Nat.shiftLeft_eq]
  omega

/-! ## allocSessionId and freeSessionId: what a call does -/

/-- When the first clear position of the cyclic scan is `k` steps from the
cursor, any fuel above `k` makes `allocSessionId` return, with that position
set and the cursor on it. -/
theorem allocSessionId_found (s : SessionIDManager) (k fuel : Nat)
    (hc : s.allocIdx_ ≤ MAX_SESSION_INDEX_SERVER)
    (hset : ∀ j, j < k →
      s.sessionIds_.test ((s.allocIdx_ + j) % (MAX_SESSION_INDEX_SERVER + 1)) = .ok true)
    (hk : s.sessionIds_.test ((s.allocIdx_ + k) % (MAX_SESSION_INDEX_SERVER + 1)) = .ok false)
    (hfuel : k < fuel) :
    allocSessionId fuel s = some (.ok
      (((s.serverId_ <<< 24) % 2 ^ 32) ||| ((s.allocIdx_ + k) % (MAX_SESSION_INDEX_SERVER + 1)),
        { s with
          sessionIds_ := fun j =>
            if j.val = (s.allocIdx_ + k) % (MAX_SESSION_INDEX_SERVER + 1) then true
            else s.sessionIds_ j
          allocIdx_ := (s.allocIdx_ + k) % (MAX_SESSION_INDEX_SERVER + 1) })) := by
  obtain ⟨extra, rfl⟩ : ∃ extra, fuel = k + 1 + extra := ⟨fuel - (k + 1), by omega⟩
  have hloop := allocLoop_found s.sessionIds_ k s.allocIdx_ extra hc hset hk
  have hlt : (s.allocIdx_ + k) % (MAX_SESSION_INDEX_SERVER + 1) < MAX_SESSION_INDEX_SERVER + 1 :=
    Nat.mod_lt _ (by simp only [MAX_SESSION_INDEX_SERVER]; omega)
  simp only [allocSessionId, hloop, bitset.set_of_lt _ _ _ hlt]

/-- Whatever the fuel, a call of `allocSessionId` that returns has found a clear
position `i`, set it, left the cursor on it and returned the id built from it. -/
theorem allocSessionId_returned (s s' : SessionIDManager) (fuel id : Nat)
    (h : allocSessionId fuel s = some (.ok (id, s'))) :
    ∃ i, i ≤ MAX_SESSION_INDEX_SERVER ∧ s.sessionIds_.test i = .ok false ∧
      id = ((s.serverId_ <<< 24) % 2 ^ 32) ||| i ∧
      s' = { s with
        sessionIds_ := fun j => if j.val = i then true else s.sessionIds_ j
        allocIdx_ := i } := by
  unfold allocSessionId at h
  split at h
  · simp at h
  · simp at h
  · rename_i idx hloop
    have hclear := allocLoop_exit_clear _ _ _ _ hloop
    obtain ⟨hlt, _⟩ := bitset.test_eq_ok _ _ _ hclear
    rw [bitset.set_of_lt _ _ _ hlt] at h
    simp only [Option.some.injEq, Except.ok.injEq, Prod.mk.injEq] at h
    exact ⟨idx, by omega, hclear, h.1.symm, h.2.symm⟩

/-- The method `freeSessionId` never throws: the masked index is in range. -/
theorem freeSessionId_eq (s : SessionIDManager) (sessionId : Nat) :
    freeSessionId s sessionId = .ok { s with
      sessionIds_ := fun j =>
        if j.val = sessionId &&& 0x00FFFFFF then false else s.sessionIds_ j } := by
  have hlt : sessionId &&& 0x00FFFFFF < MAX_SESSION_INDEX_SERVER + 1 :=
    Nat.lt_succ_of_le (and_mask_le sessionId)
  simp only [freeSessionId, bitset.set_of_lt _ _ _ hlt]

/-- The cursor after `j` passes through the loop body. -/
theorem advanceIdx_iterate (j c : Nat) (hc : c ≤ MAX_SESSION_INDEX_SERVER) :
    advanceIdx^[j] c = (c + j) % (MAX_SESSION_INDEX_SERVER + 1) := by
  induction j with
  | zero =>
    simp only [Function.iterate_zero, id_eq, MAX_SESSION_INDEX_SERVER] at *
    omega
  | succ j ih =>
    rw [Function.iterate_succ_apply', ih, advanceIdx_of_le]
    · simp only [MAX_SESSION_INDEX_SERVER]; omega
    · simp only [MAX_SESSION_INDEX_SERVER]; omega

/-- With every bit set, the loop is still running after any number of tests. -/
theorem allocLoop_full (b : bitset (MAX_SESSION_INDEX_SERVER + 1))
    (hfull : ∀ p, b p = true) (fuel c : Nat) (hc : c ≤ MAX_SESSION_INDEX_SERVER) :
    allocLoop b fuel c = none := by
  apply allocLoop_running b fuel c hc
  intro j _
  have hlt : (c + j) % (MAX_SESSION_INDEX_SERVER + 1) < MAX_SESSION_INDEX_SERVER + 1 :=
    Nat.mod_lt _ (by simp only [MAX_SESSION_INDEX_SERVER]; omega)
  rw [bitset.test_of_lt b _ hlt, hfull]

/-- One allocation on a manager whose indices in use are exactly those below
`m`, the cursor on the last of them: index `m` is handed out. -/
theorem allocSessionId_prefix (s : SessionIDManager) (m : Nat)
    (hcur : s.allocIdx_ + 1 = m ∨ (m = 0 ∧ s.allocIdx_ = 0))
    (hbits : ∀ j : Fin (MAX_SESSION_INDEX_SERVER + 1), s.sessionIds_ j = decide (j.val < m))
    (hm : m ≤ MAX_SESSION_INDEX_SERVER) :
    allocSessionId (MAX_SESSION_INDEX_SERVER + 1) s = some (.ok
      (((s.serverId_ <<< 24) % 2 ^ 32) ||| m,
        { serverId_ := s.serverId_
          sessionIds_ := fun j => decide (j.val < m + 1)
          allocIdx_ := m })) := by
  have hc : s.allocIdx_ ≤ MAX_SESSION_INDEX_SERVER := by omega
  have hpos : (s.allocIdx_ + (m - s.allocIdx_)) % (MAX_SESSION_INDEX_SERVER + 1) = m := by
    simp only [MAX_SESSION_INDEX_SERVER] at *; omega
  have hfound := allocSessionId_found s (m - s.allocIdx_) (MAX_SESSION_INDEX_SERVER + 1) hc
    (by
      intro j hj
      have hlt : (s.allocIdx_ + j) % (MAX_SESSION_INDEX_SERVER + 1)
          < MAX_SESSION_INDEX_SERVER + 1 :=
        Nat.mod_lt _ (by simp only [MAX_SESSION_INDEX_SERVER]; omega)
      rw [bitset.test_of_lt _ _ hlt, hbits]
      simp only [MAX_SESSION_INDEX_SERVER] at *
      simp only [Except.ok.injEq, decide_eq_true_eq]
      omega)
    (by
      rw [hpos, bitset.test_of_lt _ _ (by omega), hbits]
      simp)
    (by simp only [MAX_SESSION_INDEX_SERVER] at *; omega)
  rw [hpos] at hfound
  rw [hfound]
  simp only [Option.some.injEq, Except.ok.injEq, Prod.mk.injEq, SessionIDManager.mk.injEq,
    true_and, and_true]
  funext j
  rw [hbits]
  by_cases hj : j.val = m
  · simp [hj]
  · simp only [hj, if_false]
    rw [decide_eq_decide]
    omega

/-- Repeated allocation keeps the indices in use a prefix `[0, m)` of the bitset. -/
theorem allocRepeat_prefix :
    ∀ (n m : Nat) (s : SessionIDManager),
      (s.allocIdx_ + 1 = m ∨ (m = 0 ∧ s.allocIdx_ = 0)) →
      (∀ j : Fin (MAX_SESSION_INDEX_SERVER + 1), s.sessionIds_ j = decide (j.val < m)) →
      m + n ≤ MAX_SESSION_INDEX_SERVER + 1 →
      ∃ s', allocRepeat (MAX_SESSION_INDEX_SERVER + 1) n s = some s' ∧
        s'.serverId_ = s.serverId_ ∧
        (∀ j : Fin (MAX_SESSION_INDEX_SERVER + 1), s'.sessionIds_ j = decide (j.val < m + n)) ∧
        (s'.allocIdx_ + 1 = m + n ∨ (m + n = 0 ∧ s'.allocIdx_ = 0)) := by
  intro n
  induction n with
  | zero =>
    intro m s hcur hbits _
    exact ⟨s, rfl, rfl, hbits, hcur⟩
  | succ n ih =>
    intro m s hcur hbits hm
    have hstep := allocSessionId_prefix s m hcur hbits (by omega)
    obtain ⟨s', hrun, hsid, hb, hcur'⟩ := ih (m + 1)
      { serverId_ := s.serverId_
        sessionIds_ := fun j => decide (j.val < m + 1)
        allocIdx_ := m } (Or.inl rfl) (fun _ => rfl) (by omega)
    refine ⟨s', ?_, hsid, ?_, ?_⟩
    · simp only [allocRepeat, hstep]
      exact hrun
    · intro j
      rw [hb j, decide_eq_decide]
      omega
    · omega

/-- Scenario "exhaustion": on a fresh manager `2 ^ 24` allocations in a row all
return, and leave every bit set with the cursor on the last index. -/
theorem allocRepeat_ctor_full (serverId : Nat) :
    ∃ s, allocRepeat (MAX_SESSION_INDEX_SERVER + 1) (MAX_SESSION_INDEX_SERVER + 1)
        (SessionIDManager.ctor serverId) = some s ∧
      s.serverId_ = serverId % 2 ^ 8 ∧
      (∀ p, s.sessionIds_ p = true) ∧
      s.allocIdx_ = MAX_SESSION_INDEX_SERVER := by
  obtain ⟨s, hrun, hsid, hb, hcur⟩ := allocRepeat_prefix (MAX_SESSION_INDEX_SERVER + 1) 0
    (SessionIDManager.ctor serverId) (Or.inr ⟨rfl, rfl⟩)
    (by intro j; simp [SessionIDManager.ctor, bitset.reset]) (by omega)
  refine ⟨s, hrun, hsid, ?_, by omega⟩
  intro p
  rw [hb p]
  have := p.isLt
  simp only [decide_eq_true_eq]
  omega

/-! ## Live session ids -/

theorem Tracked.inv_ctor (serverId : Nat) :
    Tracked.Inv { mgr := SessionIDManager.ctor serverId, live := [] } := by
  refine ⟨Nat.zero_le _, ?_, ?_, ?_⟩
  · intro id hid
    simp at hid
  · simp
  · intro p hp
    simp [SessionIDManager.ctor, bitset.reset] at hp

/-- An id that `allocSessionId` returns has an index no live id has. -/
theorem Tracked.alloc_fresh (t : Tracked) (hinv : t.Inv) (fuel id : Nat) (m : SessionIDManager)
    (h : allocSessionId fuel t.mgr = some (.ok (id, m))) :
    ∀ id' ∈ t.live, id &&& 0x00FFFFFF ≠ id' &&& 0x00FFFFFF := by
  obtain ⟨i, hi, hclear, hid, _⟩ := allocSessionId_returned _ _ _ _ h
  intro id' hid' heq
  have hset := hinv.2.1 id' hid'
  rw [← heq, hid, sessionId_index _ _ hi, hclear] at hset
  simp at hset

theorem Tracked.inv_call (fuel : Nat) (t t' : Tracked) (c : Call) (hinv : t.Inv)
    (h : t.call fuel c = some t') : t'.Inv := by
  obtain ⟨hcur, hlive, hnodup, hcover⟩ := hinv
  cases c with
  | allocSessionId =>
    simp only [Tracked.call] at h
    split at h
    · rename_i id m hret
      simp only [Option.some.injEq] at h
      subst h
      have hfresh := Tracked.alloc_fresh t ⟨hcur, hlive, hnodup, hcover⟩ _ _ _ hret
      obtain ⟨i, hi, hclear, hid, hm⟩ := allocSessionId_returned _ _ _ _ hret
      have hidx : id &&& 0x00FFFFFF = i := by rw [hid]; exact sessionId_index _ _ hi
      have hilt : i < MAX_SESSION_INDEX_SERVER + 1 := by omega
      subst hm
      refine ⟨hi, ?_, ?_, ?_⟩
      · intro id' hid'
        show bitset.test _ _ = _
        rw [bitset.test_write]
        rcases List.mem_cons.mp hid' with rfl | hmem
        · rw [hidx]; simp [hilt]
        · have hne : id' &&& 0x00FFFFFF ≠ i := by
            rw [← hidx]; exact fun e => hfresh id' hmem e.symm
          rw [if_neg (fun hh => hne hh.2)]
          exact hlive id' hmem
      · show (List.map _ (id :: t.live)).Nodup
        rw [List.map_cons, List.nodup_cons]
        refine ⟨?_, hnodup⟩
        intro hmem
        obtain ⟨id', hid', heq⟩ := List.mem_map.mp hmem
        exact hfresh id' hid' heq.symm
      · intro p hp
        by_cases hpi : p.val = i
        · exact ⟨id, List.mem_cons_self _ _, by rw [hidx, hpi]⟩
        · have hp' : t.mgr.sessionIds_ p = true := by simpa [hpi] using hp
          obtain ⟨id', hid', heq⟩ := hcover p hp'
          exact ⟨id', List.mem_cons_of_mem _ hid', heq⟩
    · simp at h
  | freeSessionId sessionId =>
    by_cases hmem : sessionId ∈ t.live
    · simp only [Tracked.call, hmem, if_true, freeSessionId_eq, Option.some.injEq] at h
      subst h
      have hnd : t.live.Nodup := List.Nodup.of_map _ hnodup
      have hinj := List.inj_on_of_nodup_map hnodup
      refine ⟨hcur, ?_, ?_, ?_⟩
      · intro id' hid'
        have hmem' : id' ∈ t.live := List.mem_of_mem_erase hid'
        have hne : id' ≠ sessionId := fun e => by
          subst e
          exact (List.Nodup.mem_erase_iff hnd).mp hid' |>.1 rfl
        have hne' : id' &&& 0x00FFFFFF ≠ sessionId &&& 0x00FFFFFF :=
          fun e => hne (hinj hmem' hmem e)
        show bitset.test _ _ = _
        rw [bitset.test_write, if_neg (fun hh => hne' hh.2)]
        exact hlive id' hmem'
      · show (List.map _ (t.live.erase sessionId)).Nodup
        exact List.Nodup.sublist (List.Sublist.map _ (List.erase_sublist _ _)) hnodup
      · intro p hp
        have hp2 : p.val ≠ sessionId &&& 0x00FFFFFF ∧ t.mgr.sessionIds_ p = true := by
          by_cases hpi : p.val = sessionId &&& 0x00FFFFFF
          · simp [hpi] at hp
          · exact ⟨hpi, by simpa [hpi] using hp⟩
        obtain ⟨id', hid', heq⟩ := hcover p hp2.2
        refine ⟨id', ?_, heq⟩
        rw [List.Nodup.mem_erase_iff hnd]
        refine ⟨?_, hid'⟩
        rintro rfl
        exact hp2.1 heq.symm
    · simp [Tracked.call, hmem] at h

theorem Tracked.inv_foldlM (fuel : Nat) :
    ∀ (calls : List Call) (t t' : Tracked), t.Inv →
      calls.foldlM (Tracked.call fuel) t = some t' → t'.Inv := by
  intro calls
  induction calls with
  | nil =>
    intro t t' hinv h
    simp only [List.foldlM_nil, pure, Option.some.injEq] at h
    subst h
    exact hinv
  | cons c rest ih =>
    intro t t' hinv h
    rw [List.foldlM_cons] at h
    cases hc : t.call fuel c with
    | none => rw [hc] at h; simp [bind] at h
    | some t1 =>
      rw [hc] at h
      exact ih t1 t' (Tracked.inv_call fuel t t1 c hinv hc) h

/-- With fewer live ids than bits, some bit is clear. -/
theorem Tracked.exists_clear (t : Tracked) (hinv : t.Inv)
    (hlen : t.live.length < MAX_SESSION_INDEX_SERVER + 1) :
    ∃ p : Fin (MAX_SESSION_INDEX_SERVER + 1), t.mgr.sessionIds_ p = false := by
  by_contra hnone
  have hall : ∀ p : Fin (MAX_SESSION_INDEX_SERVER + 1), t.mgr.sessionIds_ p = true := by
    intro p
    cases hb : t.mgr.sessionIds_ p
    · exact absurd ⟨p, hb⟩ hnone
    · rfl
  have hsub : (Finset.range (MAX_SESSION_INDEX_SERVER + 1))
      ⊆ (t.live.map (fun id => id &&& 0x00FFFFFF)).toFinset := by
    intro x hx
    rw [Finset.mem_range] at hx
    obtain ⟨id, hid, heq⟩ := hinv.2.2.2 ⟨x, hx⟩ (hall _)
    rw [List.mem_toFinset]
    exact List.mem_map.mpr ⟨id, hid, heq⟩
  have hcard := Finset.card_le_card hsub
  rw [Finset.card_range] at hcard
  have hle := List.toFinset_card_le (t.live.map (fun id => id &&& 0x00FFFFFF))
  rw [List.length_map] at hle
  omega

/-! ## Claims -/

/-- C1: in a state whose cursor is in `[0, 2^24-1]` and whose bitset has a clear
bit, `allocSessionId` returns `(serverId << 24) | i` where `i = (cursor + k) mod 2^24`
for the least `k` whose bit is clear; afterwards bit `i` is set and every other
bit is as before. Any fuel above `k` (in particular `2^24`) is enough. -/
theorem C1_allocSessionId_first_clear (s : SessionIDManager)
    (hsid : s.serverId_ < 2 ^ 8)
    (hc : s.allocIdx_ ≤ MAX_SESSION_INDEX_SERVER)
    (hclear : ∃ p : Fin (MAX_SESSION_INDEX_SERVER + 1), s.sessionIds_ p = false) :
    ∃ k i s', k ≤ MAX_SESSION_INDEX_SERVER ∧ i = (s.allocIdx_ + k) % 2 ^ 24 ∧
      s.sessionIds_.test i = .ok false ∧
      (∀ j, j < k → s.sessionIds_.test ((s.allocIdx_ + j) % 2 ^ 24) = .ok true) ∧
      (∀ fuel, k < fuel →
        allocSessionId fuel s = some (.ok ((s.serverId_ <<< 24) ||| i, s'))) ∧
      s'.sessionIds_.test i = .ok true ∧
      (∀ j : Fin (MAX_SESSION_INDEX_SERVER + 1), j.val ≠ i →
        s'.sessionIds_ j = s.sessionIds_ j) := by
  obtain ⟨k, hk, hkclear, hkset⟩ := exists_first_clear s.sessionIds_ s.allocIdx_ hclear
  have hlt : (s.allocIdx_ + k) % (MAX_SESSION_INDEX_SERVER + 1) < MAX_SESSION_INDEX_SERVER + 1 :=
    Nat.mod_lt _ (by simp only [MAX_SESSION_INDEX_SERVER]; omega)
  rw [two_pow_24]
  refine ⟨k, (s.allocIdx_ + k) % (MAX_SESSION_INDEX_SERVER + 1),
    { s with
      sessionIds_ := fun j =>
        if j.val = (s.allocIdx_ + k) % (MAX_SESSION_INDEX_SERVER + 1) then true
        else s.sessionIds_ j
      allocIdx_ := (s.allocIdx_ + k) % (MAX_SESSION_INDEX_SERVER + 1) },
    hk, rfl, hkclear, hkset, ?_, ?_, ?_⟩
  · intro fuel hfuel
    rw [← shiftLeft_serverId s.serverId_ hsid]
    exact allocSessionId_found s k fuel hc hkset hkclear hfuel
  · rw [bitset.test_of_lt _ _ hlt]
    simp
  · intro j hj
    simp [hj]

/-- C1 at `busyManager` (indices 0, 1, 2 in use, cursor 1): the hypotheses hold
and the call hands out index 3. -/
theorem C1_allocSessionId_first_clear_witness :
    ∃ k i s', k ≤ MAX_SESSION_INDEX_SERVER ∧ i = (busyManager.allocIdx_ + k) % 2 ^ 24 ∧
      busyManager.sessionIds_.test i = .ok false ∧
      (∀ j, j < k →
        busyManager.sessionIds_.test ((busyManager.allocIdx_ + j) % 2 ^ 24) = .ok true) ∧
      (∀ fuel, k < fuel →
        allocSessionId fuel busyManager
          = some (.ok ((busyManager.serverId_ <<< 24) ||| i, s'))) ∧
      s'.sessionIds_.test i = .ok true ∧
      (∀ j : Fin (MAX_SESSION_INDEX_SERVER + 1), j.val ≠ i →
        s'.sessionIds_ j = busyManager.sessionIds_ j) :=
  C1_allocSessionId_first_clear busyManager (by decide) (by decide)
    ⟨⟨3, by decide⟩, by decide⟩

/-- C2: after any sequence of `allocSessionId` / `freeSessionId` calls on a
fresh manager in which only live ids are freed, the bit at `id & 0x00FFFFFF` is
set for every live id, no two live ids share an index (so the live ids are
pairwise different), and an id that `allocSessionId` returns next differs, in
its index already, from every id live at that moment. While fewer than `2^24`
ids are live that next `allocSessionId` does return. -/
theorem C2_live_ids_distinct (fuel serverId : Nat) (calls : List Call) (t : Tracked)
    (hrun : runCalls fuel serverId calls = some t) :
    (∀ id ∈ t.live, t.mgr.sessionIds_.test (id &&& 0x00FFFFFF) = .ok true) ∧
    (t.live.map (fun id => id &&& 0x00FFFFFF)).Nodup ∧ t.live.Nodup ∧
    (∀ (fuel' id : Nat) (m : SessionIDManager),
      allocSessionId fuel' t.mgr = some (.ok (id, m)) →
      ∀ id' ∈ t.live, id ≠ id' ∧ id &&& 0x00FFFFFF ≠ id' &&& 0x00FFFFFF) ∧
    (t.live.length < 2 ^ 24 →
      ∃ id m, allocSessionId (2 ^ 24) t.mgr = some (.ok (id, m))) := by
  have hinv : t.Inv :=
    Tracked.inv_foldlM fuel calls _ t (Tracked.inv_ctor serverId) hrun
  refine ⟨hinv.2.1, hinv.2.2.1, List.Nodup.of_map _ hinv.2.2.1, ?_, ?_⟩
  · intro fuel' id m h id' hid'
    have hne := Tracked.alloc_fresh t hinv fuel' id m h id' hid'
    exact ⟨fun e => hne (by rw [e]), hne⟩
  · intro hlen
    rw [two_pow_24] at hlen ⊢
    obtain ⟨k, hk, hkclear, hkset⟩ :=
      exists_first_clear t.mgr.sessionIds_ t.mgr.allocIdx_ (Tracked.exists_clear t hinv hlen)
    exact ⟨_, _, allocSessionId_found t.mgr k _ hinv.1 hkset hkclear (by omega)⟩

/-- C2 on the calls allocate, allocate, free the first id, allocate, made on a
fresh manager with server id 1: the run is valid and leaves two ids live. -/
theorem C2_live_ids_distinct_witness :
    ∃ t, runCalls (2 ^ 24) 1
        [.allocSessionId, .allocSessionId, .freeSessionId 0x01000000, .allocSessionId]
        = some t ∧
      t.live = [0x01000002, 0x01000001] ∧
      (∀ id ∈ t.live, t.mgr.sessionIds_.test (id &&& 0x00FFFFFF) = .ok true) ∧
      (t.live.map (fun id => id &&& 0x00FFFFFF)).Nodup ∧ t.live.Nodup ∧
      (∀ (fuel' id : Nat) (m : SessionIDManager),
        allocSessionId fuel' t.mgr = some (.ok (id, m)) →
        ∀ id' ∈ t.live, id ≠ id' ∧ id &&& 0x00FFFFFF ≠ id' &&& 0x00FFFFFF) ∧
      (t.live.length < 2 ^ 24 →
        ∃ id m, allocSessionId (2 ^ 24) t.mgr = some (.ok (id, m))) :=
  have hsome : (runCalls (2 ^ 24) 1
      [.allocSessionId, .allocSessionId, .freeSessionId 0x01000000, .allocSessionId]).isSome
      = true := rfl
  ⟨Option.get _ hsome, (Option.some_get hsome).symm, rfl,
    C2_live_ids_distinct (2 ^ 24) 1
      [.allocSessionId, .allocSessionId, .freeSessionId 0x01000000, .allocSessionId] _
      (Option.some_get hsome).symm⟩

/-- C3, as stated, fails: after `2 ^ 24` allocations on a fresh manager every bit
is set, and the next `allocSessionId` returns nothing, neither an error nor a
session id, whatever the number of positions it may test. -/
theorem C3_exhausted_counterexample :
    ∃ s, allocRepeat (MAX_SESSION_INDEX_SERVER + 1) (MAX_SESSION_INDEX_SERVER + 1)
        (SessionIDManager.ctor 1) = some s ∧
      (∀ p, s.sessionIds_ p = true) ∧
      ¬ ∃ fuel r, allocSessionId fuel s = some r := by
  obtain ⟨s, hrun, _, hfull, hcur⟩ := allocRepeat_ctor_full 1
  refine ⟨s, hrun, hfull, ?_⟩
  rintro ⟨fuel, r, hr⟩
  have hloop := allocLoop_full s.sessionIds_ hfull fuel s.allocIdx_ (by omega)
  simp [allocSessionId, hloop] at hr

/-- C3, amended: when all `2 ^ 24` bits are set (cursor in range),
`allocSessionId` does not return at all: for every number of tests the scan
loop is still running, its cursor in range and on a set bit. -/
theorem C3_exhausted_never_returns (s : SessionIDManager)
    (hc : s.allocIdx_ ≤ MAX_SESSION_INDEX_SERVER)
    (hfull : ∀ p, s.sessionIds_ p = true) :
    ∀ fuel, allocSessionId fuel s = none ∧
      allocLoop s.sessionIds_ fuel s.allocIdx_ = none ∧
      advanceIdx^[fuel] s.allocIdx_ = (s.allocIdx_ + fuel) % 2 ^ 24 ∧
      s.sessionIds_.test (advanceIdx^[fuel] s.allocIdx_) = .ok true := by
  intro fuel
  rw [two_pow_24]
  have hloop := allocLoop_full s.sessionIds_ hfull fuel s.allocIdx_ hc
  have hit := advanceIdx_iterate fuel s.allocIdx_ hc
  have hlt : (s.allocIdx_ + fuel) % (MAX_SESSION_INDEX_SERVER + 1)
      < MAX_SESSION_INDEX_SERVER + 1 :=
    Nat.mod_lt _ (by simp only [MAX_SESSION_INDEX_SERVER]; omega)
  refine ⟨by simp [allocSessionId, hloop], hloop, hit, ?_⟩
  rw [hit, bitset.test_of_lt _ _ hlt, hfull]

/-- C3 amended, at the manager with every bit set and the cursor on the last
index (the state `2 ^ 24` allocations leave behind). -/
theorem C3_exhausted_never_returns_witness :
    fullManager.allocIdx_ ≤ MAX_SESSION_INDEX_SERVER ∧
    (∀ p, fullManager.sessionIds_ p = true) ∧
    ∀ fuel, allocSessionId fuel fullManager = none ∧
      allocLoop fullManager.sessionIds_ fuel fullManager.allocIdx_ = none ∧
      advanceIdx^[fuel] fullManager.allocIdx_ = (fullManager.allocIdx_ + fuel) % 2 ^ 24 ∧
      fullManager.sessionIds_.test (advanceIdx^[fuel] fullManager.allocIdx_) = .ok true :=
  ⟨by decide, fun _ => rfl, C3_exhausted_never_returns fullManager (by decide) (fun _ => rfl)⟩

/-- C4, as stated, fails, on the scenario the claim names: on a fresh manager,
allocate, free the result, allocate again. All other indices are clear, and
the second allocation returns the id that was just freed. -/
theorem C4_immediate_reuse_counterexample :
    ∃ id s1 s2 s3,
      allocSessionId (MAX_SESSION_INDEX_SERVER + 1) (SessionIDManager.ctor 1)
        = some (.ok (id, s1)) ∧
      id = 0x01000000 ∧
      (∃ p : Fin (MAX_SESSION_INDEX_SERVER + 1),
        p.val ≠ id &&& 0x00FFFFFF ∧ s1.sessionIds_ p = false) ∧
      freeSessionId s1 id = .ok s2 ∧
      allocSessionId (MAX_SESSION_INDEX_SERVER + 1) s2 = some (.ok (id, s3)) := by
  refine ⟨_, _, _, _, rfl, rfl, ⟨⟨1, by decide⟩, by decide, rfl⟩, rfl, rfl⟩

/-- C4, amended: let `id` be an id of this manager with index `i` (live, in
particular), in a state with the cursor in range. `freeSessionId(id)` followed
by `allocSessionId` returns, and
the id it returns differs from the freed one exactly when some index met on the
cyclic scan from the cursor before `i` is clear. When there is none (as when the
cursor is on `i`, that is when `id` is the id handed out last) the freed id is
handed out again at once. -/
theorem C4_reuse_iff_none_clear_before (s : SessionIDManager) (i : Nat)
    (hc : s.allocIdx_ ≤ MAX_SESSION_INDEX_SERVER)
    (hi : i ≤ MAX_SESSION_INDEX_SERVER) :
    ∃ id' s2 s3,
      freeSessionId s (((s.serverId_ <<< 24) % 2 ^ 32) ||| i) = .ok s2 ∧
      (∀ fuel, MAX_SESSION_INDEX_SERVER < fuel →
        allocSessionId fuel s2 = some (.ok (id', s3))) ∧
      (id' ≠ ((s.serverId_ <<< 24) % 2 ^ 32) ||| i ↔
        ∃ k, k < (i + 2 ^ 24 - s.allocIdx_) % 2 ^ 24 ∧
          s.sessionIds_.test ((s.allocIdx_ + k) % 2 ^ 24) = .ok false) := by
  rw [two_pow_24]
  have hidx := sessionId_index s.serverId_ i hi
  have hilt : i < MAX_SESSION_INDEX_SERVER + 1 := by omega
  -- the state after the free
  have hfree := freeSessionId_eq s (((s.serverId_ <<< 24) % 2 ^ 32) ||| i)
  rw [hidx] at hfree
  have htest2 : ∀ p, p < MAX_SESSION_INDEX_SERVER + 1 →
      bitset.test (fun j : Fin (MAX_SESSION_INDEX_SERVER + 1) =>
        if j.val = i then false else s.sessionIds_ j) p
        = if p = i then .ok false else s.sessionIds_.test p := by
    intro p hp
    rw [bitset.test_write]
    simp [hp]
  have hclear2 : ∃ p : Fin (MAX_SESSION_INDEX_SERVER + 1),
      (fun j : Fin (MAX_SESSION_INDEX_SERVER + 1) =>
        if j.val = i then false else s.sessionIds_ j) p = false :=
    ⟨⟨i, hilt⟩, by simp⟩
  obtain ⟨k0, hk0, hk0clear, hk0set⟩ := exists_first_clear _ s.allocIdx_ hclear2
  have hmodlt : ∀ k, (s.allocIdx_ + k) % (MAX_SESSION_INDEX_SERVER + 1)
      < MAX_SESSION_INDEX_SERVER + 1 :=
    fun k => Nat.mod_lt _ (by simp only [MAX_SESSION_INDEX_SERVER]; omega)
  -- the freed index is met at distance `d` from the cursor
  have hd : (s.allocIdx_ + (i + (MAX_SESSION_INDEX_SERVER + 1) - s.allocIdx_)
      % (MAX_SESSION_INDEX_SERVER + 1)) % (MAX_SESSION_INDEX_SERVER + 1) = i := by
    simp only [MAX_SESSION_INDEX_SERVER] at *; omega
  have hbefore : ∀ k, k < (i + (MAX_SESSION_INDEX_SERVER + 1) - s.allocIdx_)
      % (MAX_SESSION_INDEX_SERVER + 1) →
      (s.allocIdx_ + k) % (MAX_SESSION_INDEX_SERVER + 1) ≠ i := by
    intro k hk
    simp only [MAX_SESSION_INDEX_SERVER] at *; omega
  have hk0d : k0 ≤ (i + (MAX_SESSION_INDEX_SERVER + 1) - s.allocIdx_)
      % (MAX_SESSION_INDEX_SERVER + 1) := by
    by_contra hgt
    have := hk0set _ (Nat.lt_of_not_le hgt)
    rw [hd, htest2 i hilt] at this
    simp at this
  refine ⟨((s.serverId_ <<< 24) % 2 ^ 32) |||
      ((s.allocIdx_ + k0) % (MAX_SESSION_INDEX_SERVER + 1)),
    { s with sessionIds_ := fun j => if j.val = i then false else s.sessionIds_ j },
    { s with
      sessionIds_ := fun j =>
        if j.val = (s.allocIdx_ + k0) % (MAX_SESSION_INDEX_SERVER + 1) then true
        else if j.val = i then false else s.sessionIds_ j
      allocIdx_ := (s.allocIdx_ + k0) % (MAX_SESSION_INDEX_SERVER + 1) },
    hfree, ?_, ?_⟩
  · intro fuel hfuel
    exact allocSessionId_found
      { s with sessionIds_ := fun j => if j.val = i then false else s.sessionIds_ j }
      k0 fuel hc hk0set hk0clear (by omega)
  · show ((s.serverId_ <<< 24) % 2 ^ 32) ||| ((s.allocIdx_ + k0) % (MAX_SESSION_INDEX_SERVER + 1))
      ≠ _ ↔ _
    constructor
    · intro hne
      have hne' : (s.allocIdx_ + k0) % (MAX_SESSION_INDEX_SERVER + 1) ≠ i := by
        intro heq
        exact hne (by rw [heq])
      have hlt : k0 < (i + (MAX_SESSION_INDEX_SERVER + 1) - s.allocIdx_)
          % (MAX_SESSION_INDEX_SERVER + 1) := by
        rcases Nat.lt_or_ge k0 ((i + (MAX_SESSION_INDEX_SERVER + 1) - s.allocIdx_)
          % (MAX_SESSION_INDEX_SERVER + 1)) with h | h
        · exact h
        · have : k0 = (i + (MAX_SESSION_INDEX_SERVER + 1) - s.allocIdx_)
              % (MAX_SESSION_INDEX_SERVER + 1) := by omega
          rw [this] at hne'
          exact absurd hd hne'
      refine ⟨k0, hlt, ?_⟩
      have := hk0clear
      rw [htest2 _ (hmodlt k0), if_neg hne'] at this
      exact this
    · rintro ⟨k, hk, hkclear⟩ heq
      have hkne := hbefore k hk
      have hk0k : k0 ≤ k := by
        by_contra hgt
        have := hk0set k (Nat.lt_of_not_le hgt)
        rw [htest2 _ (hmodlt k), if_neg hkne, hkclear] at this
        simp at this
      have hk0ne := hbefore k0 (by omega)
      apply hk0ne
      have := congrArg (fun x => x &&& 0x00FFFFFF) heq
      simp only at this
      rw [sessionId_index _ _ (Nat.le_of_lt_succ (hmodlt k0)), hidx] at this
      exact this

/-- C4 amended at `busyManager` (indices 0, 1, 2 in use, cursor 1) and index 2:
the hypotheses hold there. -/
theorem C4_reuse_iff_none_clear_before_witness :
    ∃ id' s2 s3,
      freeSessionId busyManager (((busyManager.serverId_ <<< 24) % 2 ^ 32) ||| 2) = .ok s2 ∧
      (∀ fuel, MAX_SESSION_INDEX_SERVER < fuel →
        allocSessionId fuel s2 = some (.ok (id', s3))) ∧
      (id' ≠ ((busyManager.serverId_ <<< 24) % 2 ^ 32) ||| 2 ↔
        ∃ k, k < (2 + 2 ^ 24 - busyManager.allocIdx_) % 2 ^ 24 ∧
          busyManager.sessionIds_.test ((busyManager.allocIdx_ + k) % 2 ^ 24) = .ok false) :=
  C4_reuse_iff_none_clear_before busyManager 2 (by decide) (by decide)

/-- C5, as stated, fails: at `busyManager` (indices 0, 1, 2 in use, cursor 1)
`allocSessionId` hands out index 3 and leaves the cursor on 3, not on 4. -/
theorem C5_cursor_counterexample :
    ∃ s', allocSessionId (MAX_SESSION_INDEX_SERVER + 1) busyManager
        = some (.ok (0x01000003, s')) ∧
      s'.allocIdx_ = 3 ∧ s'.allocIdx_ ≠ (3 + 1) % 2 ^ 24 := by
  have h := allocSessionId_found busyManager 2 (MAX_SESSION_INDEX_SERVER + 1) (by decide)
    (by
      intro j hj
      have hj' : j = 0 ∨ j = 1 := by omega
      rcases hj' with rfl | rfl <;> rfl)
    rfl (by decide)
  exact ⟨_, h, by decide, by decide⟩

/-- C5, amended: in a state with the cursor in range and a clear bit,
`allocSessionId` returns, and afterwards the cursor `allocIdx_` is the index `i`
it handed out (whose bit is now set); it is not `(i + 1) mod 2^24`. -/
theorem C5_cursor_on_allocated (s : SessionIDManager)
    (hc : s.allocIdx_ ≤ MAX_SESSION_INDEX_SERVER)
    (hclear : ∃ p : Fin (MAX_SESSION_INDEX_SERVER + 1), s.sessionIds_ p = false) :
    ∃ i id s', s.sessionIds_.test i = .ok false ∧
      id = ((s.serverId_ <<< 24) % 2 ^ 32) ||| i ∧
      (∀ fuel, MAX_SESSION_INDEX_SERVER < fuel →
        allocSessionId fuel s = some (.ok (id, s'))) ∧
      s'.allocIdx_ = i ∧ s'.allocIdx_ = id &&& 0x00FFFFFF ∧
      s'.allocIdx_ ≠ (i + 1) % 2 ^ 24 ∧
      s'.sessionIds_.test s'.allocIdx_ = .ok true := by
  obtain ⟨k, hk, hkclear, hkset⟩ := exists_first_clear s.sessionIds_ s.allocIdx_ hclear
  have hlt : (s.allocIdx_ + k) % (MAX_SESSION_INDEX_SERVER + 1) < MAX_SESSION_INDEX_SERVER + 1 :=
    Nat.mod_lt _ (by simp only [MAX_SESSION_INDEX_SERVER]; omega)
  refine ⟨(s.allocIdx_ + k) % (MAX_SESSION_INDEX_SERVER + 1), _,
    { s with
      sessionIds_ := fun j =>
        if j.val = (s.allocIdx_ + k) % (MAX_SESSION_INDEX_SERVER + 1) then true
        else s.sessionIds_ j
      allocIdx_ := (s.allocIdx_ + k) % (MAX_SESSION_INDEX_SERVER + 1) },
    hkclear, rfl, ?_, rfl, ?_, ?_, ?_⟩
  · intro fuel hfuel
    exact allocSessionId_found s k fuel hc hkset hkclear (by omega)
  · exact (sessionId_index _ _ (Nat.le_of_lt_succ hlt)).symm
  · show (s.allocIdx_ + k) % (MAX_SESSION_INDEX_SERVER + 1)
      ≠ ((s.allocIdx_ + k) % (MAX_SESSION_INDEX_SERVER + 1) + 1) % 2 ^ 24
    simp only [MAX_SESSION_INDEX_SERVER] at *
    omega
  · show bitset.test _ ((s.allocIdx_ + k) % (MAX_SESSION_INDEX_SERVER + 1)) = _
    rw [bitset.test_of_lt _ _ hlt]
    simp

/-- C5 amended at `busyManager`: the hypotheses hold there. -/
theorem C5_cursor_on_allocated_witness :
    ∃ i id s', busyManager.sessionIds_.test i = .ok false ∧
      id = ((busyManager.serverId_ <<< 24) % 2 ^ 32) ||| i ∧
      (∀ fuel, MAX_SESSION_INDEX_SERVER < fuel →
        allocSessionId fuel busyManager = some (.ok (id, s'))) ∧
      s'.allocIdx_ = i ∧ s'.allocIdx_ = id &&& 0x00FFFFFF ∧
      s'.allocIdx_ ≠ (i + 1) % 2 ^ 24 ∧
      s'.sessionIds_.test s'.allocIdx_ = .ok true :=
  C5_cursor_on_allocated busyManager (by decide) ⟨⟨3, by decide⟩, by decide⟩

/-- C6: on an id whose index bit `id & 0x00FFFFFF` is clear, `freeSessionId`
leaves the manager (bitset, cursor, server id) exactly as it was; and for every
state and id, calling `freeSessionId(id)` twice gives the state one call gives. -/
theorem C6_free_noop_idempotent (s : SessionIDManager) (sessionId : Nat) :
    (s.sessionIds_.test (sessionId &&& 0x00FFFFFF) = .ok false →
      freeSessionId s sessionId = .ok s) ∧
    ∃ s1, freeSessionId s sessionId = .ok s1 ∧ freeSessionId s1 sessionId = .ok s1 := by
  constructor
  · intro hclear
    obtain ⟨hlt, hbit⟩ := bitset.test_eq_ok _ _ _ hclear
    rw [freeSessionId_eq]
    congr 1
    show SessionIDManager.mk _ _ _ = s
    cases s with
    | mk sid bits cur =>
      simp only [SessionIDManager.mk.injEq, true_and, and_true]
      funext j
      by_cases hj : j.val = sessionId &&& 0x00FFFFFF
      · have : j = ⟨sessionId &&& 0x00FFFFFF, hlt⟩ := Fin.ext hj
        subst this
        simp only [if_true]
        exact hbit.symm
      · simp [hj]
  · refine ⟨_, freeSessionId_eq s sessionId, ?_⟩
    rw [freeSessionId_eq]
    congr 1
    simp only [SessionIDManager.mk.injEq, true_and, and_true]
    funext j
    by_cases hj : j.val = sessionId &&& 0x00FFFFFF <;> simp [hj]

/-- C6 at `busyManager` and the id `0x01000005`, whose index 5 is free there. -/
theorem C6_free_noop_idempotent_witness :
    busyManager.sessionIds_.test (0x01000005 &&& 0x00FFFFFF) = .ok false ∧
    freeSessionId busyManager 0x01000005 = .ok busyManager ∧
    ∃ s1, freeSessionId busyManager 0x01000002 = .ok s1 ∧
      freeSessionId s1 0x01000002 = .ok s1 :=
  ⟨rfl, (C6_free_noop_idempotent busyManager 0x01000005).1 rfl,
    (C6_free_noop_idempotent busyManager 0x01000002).2⟩

/-- C7: `freeSessionId(sessionId)` always returns normally, clears the bit at
`sessionId & 0x00FFFFFF`, and leaves every other bit, the cursor and the server
id as they were. Only the low 24 bits of the argument count: two ids that agree
on them have the same effect, whatever their top byte. -/
theorem C7_free_clears_exactly_index (s : SessionIDManager) (sessionId : Nat) :
    ∃ s', freeSessionId s sessionId = .ok s' ∧
      s'.sessionIds_.test (sessionId &&& 0x00FFFFFF) = .ok false ∧
      (∀ j : Fin (MAX_SESSION_INDEX_SERVER + 1), j.val ≠ sessionId &&& 0x00FFFFFF →
        s'.sessionIds_ j = s.sessionIds_ j) ∧
      s'.allocIdx_ = s.allocIdx_ ∧ s'.serverId_ = s.serverId_ ∧
      (∀ y, y &&& 0x00FFFFFF = sessionId &&& 0x00FFFFFF →
        freeSessionId s y = freeSessionId s sessionId) ∧
      (∀ otherServer i, i ≤ MAX_SESSION_INDEX_SERVER →
        freeSessionId s (((otherServer <<< 24) % 2 ^ 32) ||| i) = freeSessionId s i) := by
  have hlt : sessionId &&& 0x00FFFFFF < MAX_SESSION_INDEX_SERVER + 1 :=
    Nat.lt_succ_of_le (and_mask_le sessionId)
  refine ⟨_, freeSessionId_eq s sessionId, ?_, ?_, rfl, rfl, ?_, ?_⟩
  · show bitset.test _ (sessionId &&& 0x00FFFFFF) = _
    rw [bitset.test_of_lt _ _ hlt]
    simp
  · intro j hj
    simp [hj]
  · intro y hy
    rw [freeSessionId_eq, freeSessionId_eq, hy]
  · intro otherServer i hi
    have hmask : i &&& 0x00FFFFFF = i := by
      rw [and_mask_eq_mod]
      simp only [MAX_SESSION_INDEX_SERVER] at hi
      omega
    rw [freeSessionId_eq, freeSessionId_eq, sessionId_index _ _ hi, hmask]

/-- C8, as stated, fails: the constructor accepts server id 0, and the manager
it builds hands out session id 0, whose top byte is 0. -/
theorem C8_serverId_zero_counterexample :
    (SessionIDManager.ctor 0).serverId_ = 0 ∧
    returnedId (allocSessionId (MAX_SESSION_INDEX_SERVER + 1) (SessionIDManager.ctor 0))
      = some 0 ∧
    (returnedId (allocSessionId (MAX_SESSION_INDEX_SERVER + 1) (SessionIDManager.ctor 0))).map
      (fun id => id >>> 24) = some 0 := by
  decide

/-- C8, amended: the constructor takes every 8-bit server id, 0 included, and
stores it unchanged; `allocSessionId` and `freeSessionId` never change it; the
top byte of every session id `allocSessionId` returns is the stored server id.
So that byte lies in `[1, 255]` exactly for a manager built with a server id in
`[1, 255]`. -/
theorem C8_top_byte_is_serverId (serverId : Nat) (hsid : serverId < 2 ^ 8) :
    (SessionIDManager.ctor serverId).serverId_ = serverId ∧
    (∀ (s s' : SessionIDManager) (x : Nat),
      freeSessionId s x = .ok s' → s'.serverId_ = s.serverId_) ∧
    ∀ (s s' : SessionIDManager) (fuel id : Nat), s.serverId_ = serverId →
      allocSessionId fuel s = some (.ok (id, s')) →
      s'.serverId_ = serverId ∧ id >>> 24 = serverId ∧
      ((1 ≤ id >>> 24 ∧ id >>> 24 ≤ 255) ↔ 1 ≤ serverId) := by
  refine ⟨?_, ?_, ?_⟩
  · show serverId % 2 ^ 8 = serverId
    omega
  · intro s s' x h
    rw [freeSessionId_eq] at h
    simp only [Except.ok.injEq] at h
    rw [← h]
  · intro s s' fuel id hs h
    obtain ⟨i, hi, _, hid, hs'⟩ := allocSessionId_returned s s' fuel id h
    have htop : id >>> 24 = serverId := by
      rw [hid, hs]
      exact sessionId_server serverId i hsid hi
    refine ⟨by rw [hs']; exact hs, htop, ?_⟩
    rw [htop]
    omega

/-- C8 amended at server id 1: the top byte of what a fresh manager hands out. -/
theorem C8_top_byte_is_serverId_witness :
    (1 : Nat) < 2 ^ 8 ∧
    (SessionIDManager.ctor 1).serverId_ = 1 ∧
    (∀ (s s' : SessionIDManager) (x : Nat),
      freeSessionId s x = .ok s' → s'.serverId_ = s.serverId_) ∧
    ∀ (s s' : SessionIDManager) (fuel id : Nat), s.serverId_ = 1 →
      allocSessionId fuel s = some (.ok (id, s')) →
      s'.serverId_ = 1 ∧ id >>> 24 = 1 ∧
      ((1 ≤ id >>> 24 ∧ id >>> 24 ≤ 255) ↔ 1 ≤ 1) :=
  ⟨by decide, C8_top_byte_is_serverId 1 (by decide)⟩

/-- C9: with the cursor in `[0, 2^24-1]` and a clear bit, the scan loop exits
after `k + 1 ≤ 2^24` tests (it is still running with less fuel); at every step
`j ≤ k` the cursor is `(cursor + j) mod 2^24`, in range, so the `test` there
does not throw; the cursor wraps from `2^24-1` to `0`; the final `set` is in
range too, and the cursor is in range after the call. -/
theorem C9_scan_terminates_in_range (s : SessionIDManager)
    (hc : s.allocIdx_ ≤ MAX_SESSION_INDEX_SERVER)
    (hclear : ∃ p : Fin (MAX_SESSION_INDEX_SERVER + 1), s.sessionIds_ p = false) :
    ∃ k, k + 1 ≤ 2 ^ 24 ∧
      (∀ fuel, fuel ≤ k → allocLoop s.sessionIds_ fuel s.allocIdx_ = none) ∧
      (∀ fuel, k < fuel →
        allocLoop s.sessionIds_ fuel s.allocIdx_ = some (.ok (advanceIdx^[k] s.allocIdx_))) ∧
      (∀ j, j ≤ k → advanceIdx^[j] s.allocIdx_ = (s.allocIdx_ + j) % 2 ^ 24 ∧
        advanceIdx^[j] s.allocIdx_ ≤ MAX_SESSION_INDEX_SERVER ∧
        s.sessionIds_.test (advanceIdx^[j] s.allocIdx_) = .ok (decide (j < k))) ∧
      advanceIdx MAX_SESSION_INDEX_SERVER = 0 ∧
      ∃ id s', allocSessionId (2 ^ 24) s = some (.ok (id, s')) ∧
        s.sessionIds_.set (advanceIdx^[k] s.allocIdx_) true = .ok s'.sessionIds_ ∧
        s'.allocIdx_ ≤ MAX_SESSION_INDEX_SERVER := by
  obtain ⟨k, hk, hkclear, hkset⟩ := exists_first_clear s.sessionIds_ s.allocIdx_ hclear
  have hlt : (s.allocIdx_ + k) % (MAX_SESSION_INDEX_SERVER + 1) < MAX_SESSION_INDEX_SERVER + 1 :=
    Nat.mod_lt _ (by simp only [MAX_SESSION_INDEX_SERVER]; omega)
  rw [two_pow_24]
  refine ⟨k, by omega, ?_, ?_, ?_, by decide, _, _,
    allocSessionId_found s k _ hc hkset hkclear (by omega), ?_, ?_⟩
  · intro fuel hfuel
    exact allocLoop_running _ fuel _ hc (fun j hj => hkset j (by omega))
  · intro fuel hfuel
    obtain ⟨extra, rfl⟩ : ∃ extra, fuel = k + 1 + extra := ⟨fuel - (k + 1), by omega⟩
    rw [advanceIdx_iterate k _ hc]
    exact allocLoop_found _ k _ extra hc hkset hkclear
  · intro j hj
    rw [advanceIdx_iterate j _ hc]
    refine ⟨rfl, ?_, ?_⟩
    · simp only [MAX_SESSION_INDEX_SERVER]; omega
    · rcases Nat.lt_or_ge j k with hjk | hjk
      · rw [hkset j hjk]; simp [hjk]
      · have : j = k := by omega
        subst this
        rw [hkclear]; simp
  · rw [advanceIdx_iterate k _ hc, bitset.set_of_lt _ _ _ hlt]
  · exact Nat.le_of_lt_succ hlt

/-- C9 at `busyManager`: the hypotheses hold there. -/
theorem C9_scan_terminates_in_range_witness :
    ∃ k, k + 1 ≤ 2 ^ 24 ∧
      (∀ fuel, fuel ≤ k →
        allocLoop busyManager.sessionIds_ fuel busyManager.allocIdx_ = none) ∧
      (∀ fuel, k < fuel →
        allocLoop busyManager.sessionIds_ fuel busyManager.allocIdx_
          = some (.ok (advanceIdx^[k] busyManager.allocIdx_))) ∧
      (∀ j, j ≤ k →
        advanceIdx^[j] busyManager.allocIdx_ = (busyManager.allocIdx_ + j) % 2 ^ 24 ∧
        advanceIdx^[j] busyManager.allocIdx_ ≤ MAX_SESSION_INDEX_SERVER ∧
        busyManager.sessionIds_.test (advanceIdx^[j] busyManager.allocIdx_)
          = .ok (decide (j < k))) ∧
      advanceIdx MAX_SESSION_INDEX_SERVER = 0 ∧
      ∃ id s', allocSessionId (2 ^ 24) busyManager = some (.ok (id, s')) ∧
        busyManager.sessionIds_.set (advanceIdx^[k] busyManager.allocIdx_) true
          = .ok s'.sessionIds_ ∧
        s'.allocIdx_ ≤ MAX_SESSION_INDEX_SERVER :=
  C9_scan_terminates_in_range busyManager (by decide) ⟨⟨3, by decide⟩, by decide⟩

/-- C10: for a server id in `[0, 255]`: with the cursor in range and a clear
bit, `allocSessionId` returns (fuel `2^24`); and whenever it returns `id`, then
`id >> 24` is the server id, `id & 0x00FFFFFF` is the index whose bit was clear
before and has just been set, and `freeSessionId(id)` afterwards restores the
bitset to its contents before the allocation, the cursor staying on the index. -/
theorem C10_alloc_free_roundtrip (s : SessionIDManager) (hsid : s.serverId_ < 2 ^ 8) :
    (s.allocIdx_ ≤ MAX_SESSION_INDEX_SERVER →
      (∃ p : Fin (MAX_SESSION_INDEX_SERVER + 1), s.sessionIds_ p = false) →
      ∃ id s', allocSessionId (2 ^ 24) s = some (.ok (id, s'))) ∧
    ∀ (fuel id : Nat) (s' : SessionIDManager),
      allocSessionId fuel s = some (.ok (id, s')) →
      id >>> 24 = s.serverId_ ∧
      s.sessionIds_.test (id &&& 0x00FFFFFF) = .ok false ∧
      s'.sessionIds_.test (id &&& 0x00FFFFFF) = .ok true ∧
      (∀ j : Fin (MAX_SESSION_INDEX_SERVER + 1), j.val ≠ id &&& 0x00FFFFFF →
        s'.sessionIds_ j = s.sessionIds_ j) ∧
      freeSessionId s' id = .ok { s with allocIdx_ := id &&& 0x00FFFFFF } := by
  constructor
  · intro hc hclear
    obtain ⟨k, hk, hkclear, hkset⟩ := exists_first_clear s.sessionIds_ s.allocIdx_ hclear
    rw [two_pow_24]
    exact ⟨_, _, allocSessionId_found s k _ hc hkset hkclear (by omega)⟩
  · intro fuel id s' h
    obtain ⟨i, hi, hclear, hid, hs'⟩ := allocSessionId_returned s s' fuel id h
    have hidx : id &&& 0x00FFFFFF = i := by rw [hid]; exact sessionId_index _ _ hi
    obtain ⟨hlt, hbit⟩ := bitset.test_eq_ok _ _ _ hclear
    rw [hidx]
    refine ⟨by rw [hid]; exact sessionId_server _ i hsid hi, hclear, ?_, ?_, ?_⟩
    · rw [hs']
      show bitset.test _ i = _
      rw [bitset.test_of_lt _ _ hlt]
      simp
    · intro j hj
      rw [hs']
      simp [hj]
    · rw [freeSessionId_eq, hidx, hs']
      congr 1
      simp only [SessionIDManager.mk.injEq, true_and, and_true]
      funext j
      by_cases hj : j.val = i
      · have : j = ⟨i, hlt⟩ := Fin.ext hj
        subst this
        simp only [if_true]
        exact hbit.symm
      · simp [hj]

/-- C10 at `busyManager`: server id 1 is an 8-bit value. -/
theorem C10_alloc_free_roundtrip_witness :
    (busyManager.allocIdx_ ≤ MAX_SESSION_INDEX_SERVER →
      (∃ p : Fin (MAX_SESSION_INDEX_SERVER + 1), busyManager.sessionIds_ p = false) →
      ∃ id s', allocSessionId (2 ^ 24) busyManager = some (.ok (id, s'))) ∧
    ∀ (fuel id : Nat) (s' : SessionIDManager),
      allocSessionId fuel busyManager = some (.ok (id, s')) →
      id >>> 24 = busyManager.serverId_ ∧
      busyManager.sessionIds_.test (id &&& 0x00FFFFFF) = .ok false ∧
      s'.sessionIds_.test (id &&& 0x00FFFFFF) = .ok true ∧
      (∀ j : Fin (MAX_SESSION_INDEX_SERVER + 1), j.val ≠ id &&& 0x00FFFFFF →
        s'.sessionIds_ j = busyManager.sessionIds_ j) ∧
      freeSessionId s' id = .ok { busyManager with allocIdx_ := id &&& 0x00FFFFFF } :=
  C10_alloc_free_roundtrip busyManager (by decide)

end StratumServer
